import Mathlib

/-!
Verification of the k-means color-quantization core (`clusterizeImage` and its
helpers).  The TypeScript source is shallowly embedded: JavaScript numbers that
hold pixel channels, sums and averages are modelled as rationals (ℚ) — every
value the algorithm produces from 8-bit integer inputs is an exact rational,
so ℚ is a faithful idealization of the float computation; `Uint8ClampedArray`
entries are naturals in [0,255]; the fallible guards (`throw new Error`) become
`Option`; the iteration loop is driven by its explicit `maxIterations` fuel.
-/

/-- The `Pixel` record of the source: four numeric channels. -/
structure Pixel where
  red : ℚ
  green : ℚ
  blue : ℚ
  alpha : ℚ
deriving DecidableEq

/-- Default pixel used with `List.getD` where the source indexes arrays. -/
def pxZero : Pixel := ⟨0, 0, 0, 0⟩

/-- Squared Euclidean distance in 4-channel space, the expression under
`Math.sqrt` in `distance` and the `distSquared` of the assignment pass. -/
def distSq (a b : Pixel) : ℚ :=
  (a.alpha - b.alpha) ^ 2 + (a.red - b.red) ^ 2 +
    (a.green - b.green) ^ 2 + (a.blue - b.blue) ^ 2

/-- The source's convergence comparison `distance(a, b) < tolerance`, i.e.
`Math.sqrt (distSq a b) < tolerance`.  For a nonnegative radicand `s`,
`Real.sqrt s < t` holds iff `0 < t ∧ s < t^2`, which keeps the test inside ℚ;
`distLt_iff_sqrt` below proves this embedding is exact. -/
def distLt (a b : Pixel) (tol : ℚ) : Bool :=
  decide (0 < tol ∧ distSq a b < tol * tol)

/-- `Math.ceil (dim / step)` for natural `dim` and positive natural `step`. -/
def cellsOf (dim step : ℕ) : ℕ := (dim + step - 1) / step

/-- The mutable `{red, green, blue, alpha, count}` accumulator used both by
`toPixelArray` (cell averaging) and by the update pass (`clusterSums`). -/
structure CSum where
  red : ℚ
  green : ℚ
  blue : ℚ
  alpha : ℚ
  count : ℕ
deriving DecidableEq

/-- The all-zero accumulator (`{red: 0, green: 0, blue: 0, alpha: 0, count: 0}`). -/
def CSum.zero : CSum := ⟨0, 0, 0, 0, 0⟩

/-- Add the four channel values and bump `count` by `k`; the source always has
`k = 1` (`sum.red += r; ...; count++`), the general `k` is for proofs. -/
def CSum.addN (s : CSum) (r g b a : ℚ) (k : ℕ) : CSum :=
  ⟨s.red + r, s.green + g, s.blue + b, s.alpha + a, s.count + k⟩

/-- One `r += ...; g += ...; b += ...; a += ...; count++` step of the source. -/
def CSum.addPix (s : CSum) (r g b a : ℚ) : CSum := s.addN r g b a 1

/-- The cell-averaging body of `toPixelArray` for the cell whose top-left
corner is `(x, y)`: the inner loops `for (yy = 0; yy < yStep && y + yy <
height; yy++)` and `for (xx = 0; xx < xStep && x + xx < width; xx++)` run
`yy` over `[0, min yStep (height - y))` and `xx` over
`[0, min xStep (width - x))` (the conjuncts are monotone in the counter), sum
the four channels of every in-bounds pixel, and divide by the running
`count`. -/
def sampleCell (data : List ℕ) (width height x y xStep yStep : ℕ) : Pixel :=
  let s := (List.range (min yStep (height - y))).foldl (fun acc yy =>
    (List.range (min xStep (width - x))).foldl (fun acc xx =>
      let idx := ((y + yy) * width + (x + xx)) * 4
      acc.addPix (data.getD idx 0) (data.getD (idx + 1) 0)
        (data.getD (idx + 2) 0) (data.getD (idx + 3) 0)) acc) CSum.zero
  ⟨s.red / s.count, s.green / s.count, s.blue / s.count, s.alpha / s.count⟩

/-- Spec-side formulation of one Pixel-Sampler cell (for the refinement
proof): for the cell with top-left corner `(x, y)`, each channel is the sum
over exactly the in-bounds pixels of the cell divided by the exact number of
contributing pixels `min xStep (width - x) * min yStep (height - y)` — never
by the nominal cell area `xStep * yStep`. -/
def cellMean (data : List ℕ) (width height x y xStep yStep : ℕ) : Pixel :=
  let nx := min xStep (width - x)
  let ny := min yStep (height - y)
  let cnt : ℚ := ((nx * ny : ℕ) : ℚ)
  let ch : ℕ → ℚ := fun c =>
    ((List.range ny).map fun yy =>
      ((List.range nx).map fun xx =>
        ((data.getD (((y + yy) * width + (x + xx)) * 4 + c) 0 : ℕ) : ℚ)).sum).sum
  ⟨ch 0 / cnt, ch 1 / cnt, ch 2 / cnt, ch 3 / cnt⟩

/-- `toPixelArray`: guards `height * width !== data.length / 4` (equivalently
`4 * (height * width) ≠ data.length`), then visits the cells row-major —
`y = cy * yStep` for `cy < cellsY` and `x = cx * xStep` for `cx < cellsX` —
appending one averaged sample per cell (`pixels[index++] = ...`). -/
def toPixelArray (data : List ℕ) (height width xStep yStep : ℕ) :
    Option (List Pixel) :=
  if 4 * (height * width) ≠ data.length then none
  else
    let cellsX := cellsOf width xStep
    let cellsY := cellsOf height yStep
    some ((List.range cellsY).flatMap fun cy =>
      (List.range cellsX).map fun cx =>
        sampleCell data width height (cx * xStep) (cy * yStep) xStep yStep)

/-- Round half to even, the rounding mode of `Uint8ClampedArray` stores. -/
def roundHalfEven (q : ℚ) : ℤ :=
  let fl := ⌊q⌋
  let frac := q - fl
  if frac < 1 / 2 then fl
  else if 1 / 2 < frac then fl + 1
  else if 2 ∣ fl then fl else fl + 1

/-- Storing a number into a `Uint8ClampedArray` slot: clamp to [0, 255] and
round half to even. -/
def clamp8 (q : ℚ) : ℕ :=
  if q ≤ 0 then 0 else if 255 ≤ q then 255 else (roundHalfEven q).toNat

/-- `fromPixelArray`: guards `pixels.length !== cellsX * cellsY`, then visits
cells in the same row-major order (`pixels[index++]` pairs cell `(cy, cx)`
with grid index `cy * cellsX + cx`) and broadcasts the cell's sample to every
in-bounds pixel it covers, writing the four channels in R, G, B, A order into
a zero-initialized `Uint8ClampedArray` of length `width * height * 4`. -/
def fromPixelArray (pixels : List Pixel) (height width xStep yStep : ℕ) :
    Option (List ℕ) :=
  let cellsX := cellsOf width xStep
  let cellsY := cellsOf height yStep
  if pixels.length ≠ cellsX * cellsY then none
  else
    some ((List.range cellsY).foldl (fun out cy =>
      (List.range cellsX).foldl (fun out cx =>
        let pix := pixels.getD (cy * cellsX + cx) pxZero
        (List.range (min yStep (height - cy * yStep))).foldl (fun out yy =>
          (List.range (min xStep (width - cx * xStep))).foldl (fun out xx =>
            let idx := ((cy * yStep + yy) * width + (cx * xStep + xx)) * 4
            ((((out.set idx (clamp8 pix.red)).set (idx + 1)
              (clamp8 pix.green)).set (idx + 2)
              (clamp8 pix.blue)).set (idx + 3) (clamp8 pix.alpha))) out) out)
        out) (List.replicate (width * height * 4) 0))

/-- `unique`: `[...new Set(arr.map(JSON.stringify))].map(JSON.parse)`.  A JS
`Set` keeps first-insertion order and drops later duplicates, and
`JSON.stringify` is injective on `Pixel` records (same keys in same order,
distinct numbers print distinctly) with `JSON.parse` its inverse, so the
composite deduplicates by structural equality in first-occurrence order. -/
def unique (l : List Pixel) : List Pixel :=
  l.foldl (fun acc p => if p ∈ acc then acc else acc ++ [p]) []

/-- Spec-side formulation of the Deduplicator contract (for the refinement
proof): keep each distinct value at its first occurrence, dropping the rest. -/
def firstOccurrences : List Pixel → List Pixel
  | [] => []
  | p :: ps => p :: firstOccurrences (ps.filter (fun q => q ≠ p))
termination_by l => l.length
decreasing_by
  simp only [List.length_cons]
  exact Nat.lt_succ_of_le (List.length_filter_le _ _)

/-- One step of the assignment scan over the centroid list: `ci` is the loop
counter, `closest` the best index so far, and `minSq` the best squared
distance so far, with `none` standing for the initial
`minDistanceSquared = Infinity` (every finite squared distance beats it). -/
def assignAux (p : Pixel) : List Pixel → ℕ → ℕ → Option ℚ → ℕ
  | [], _, closest, _ => closest
  | c :: rest, ci, closest, minSq =>
    let d := distSq p c
    let beats : Bool :=
      match minSq with
      | none => true
      | some m => decide (d < m)
    if beats then assignAux p rest (ci + 1) ci (some d)
    else assignAux p rest (ci + 1) closest minSq

/-- The assignment pass for one sample: scan all centroids, keep the first
index achieving the minimal squared distance (`closestCentroid` starts at 0,
`minDistanceSquared` at Infinity). -/
def assignPixel (centroids : List Pixel) (p : Pixel) : ℕ :=
  assignAux p centroids 0 0 none

/-- Replace the element at an index, leaving the list unchanged when the index
is out of range (the source only ever hits in-range indices). -/
def modifyAt : List CSum → ℕ → (CSum → CSum) → List CSum
  | [], _, _ => []
  | s :: l, 0, f => f s :: l
  | s :: l, n + 1, f => s :: modifyAt l n f

/-- `new Array(k).fill(null).map(() => ({red: 0, ..., count: 0}))`. -/
def emptySums (k : ℕ) : List CSum := List.replicate k CSum.zero

/-- The accumulation loop of the update pass: for each sample, add its four
channels into `clusterSums[clusters.get(pixel)]` and bump that count. -/
def buildSums (pixels : List Pixel) (assigns : List ℕ) (k : ℕ) : List CSum :=
  (List.zip pixels assigns).foldl
    (fun sums pa => modifyAt sums pa.2
      (fun s => s.addPix pa.1.red pa.1.green pa.1.blue pa.1.alpha))
    (emptySums k)

/-- The centroid-recomputation loop: for each cluster index, replace the
centroid by the per-channel mean of its members when `count > 0`, and keep the
previous centroid when the cluster received no samples. -/
def updateCentroids (centroids : List Pixel) (sums : List CSum) : List Pixel :=
  List.zipWith
    (fun c s => if 0 < s.count then
      (⟨s.red / s.count, s.green / s.count, s.blue / s.count,
        s.alpha / s.count⟩ : Pixel)
      else c)
    centroids sums

/-- One full iteration body (assignment pass then update pass): returns the
updated centroids and the fresh assignment of every sample. -/
def kmeansStep (pixels centroids : List Pixel) : List Pixel × List ℕ :=
  let assigns := pixels.map (assignPixel centroids)
  let sums := buildSums pixels assigns centroids.length
  (updateCentroids centroids sums, assigns)

/-- `centroids.every((c, i) => distance(c, previousCentroids[i]) < tolerance)`. -/
def hasConverged (newCs prevCs : List Pixel) (tol : ℚ) : Bool :=
  (List.zip newCs prevCs).all fun cp => distLt cp.1 cp.2 tol

/-- Outcome of the k-means loop: final centroids, the `previousCentroids`
snapshot taken at the start of the last executed iteration, the sample
assignments, the number of iterations executed, and whether the loop stopped
by the convergence break. -/
structure KMeansResult where
  centroids : List Pixel
  prev : List Pixel
  assigns : List ℕ
  iters : ℕ
  converged : Bool
deriving DecidableEq

/-- The `for (iteration = 0; iteration < maxIterations; iteration++)` loop:
snapshot the centroids, run the iteration body, and break when every centroid
moved strictly less than `tolerance`.  `fuel` counts the iterations still
allowed, `done` the iterations already executed. -/
def kmeansLoop (pixels : List Pixel) (tol : ℚ) :
    ℕ → List Pixel → List ℕ → List Pixel → ℕ → KMeansResult
  | 0, cs, asg, prev, done => ⟨cs, prev, asg, done, false⟩
  | fuel + 1, cs, _, _, done =>
    let snapshot := cs
    let step := kmeansStep pixels cs
    if hasConverged step.1 snapshot tol then
      ⟨step.1, snapshot, step.2, done + 1, true⟩
    else kmeansLoop pixels tol fuel step.1 step.2 snapshot (done + 1)

/-- The k-means engine on a sample grid, from the initial centroids
(`previousCentroids` starts as the empty array, `clusters` as the empty map). -/
def kmeans (pixels centroids : List Pixel) (tol : ℚ) (maxIterations : ℕ) :
    KMeansResult :=
  kmeansLoop pixels tol maxIterations centroids [] [] 0

/-- The inner rejection-sampling `do {...} while (picked.includes(index))` of
centroid initialization: draw `draws t`, retry while the draw was already
picked.  `draws` abstracts the stream of values `Math.floor(Math.random() *
uniqueColors.length)` (each strictly below the unique-color count when that
count is positive); `fuel` bounds the retries so the function is total — the
source has no such bound, so a result of `none` for every `fuel` means the
source loop never terminates. -/
def drawLoop (draws : ℕ → ℕ) (picked : List ℕ) : ℕ → ℕ → Option (ℕ × ℕ)
  | _, 0 => none
  | t, fuel + 1 =>
    let idx := draws t
    if idx ∈ picked then drawLoop draws picked (t + 1) fuel
    else some (idx, t + 1)

/-- The centroid-initialization loop `for (i = 0; i < clusterQuantity; i++)`:
each round rejection-samples one index not yet in `picked`, records it, and
copies `uniqueColors[index]` into the centroid slot. -/
def initGo (uniq : List Pixel) (draws : ℕ → ℕ) :
    ℕ → List ℕ → ℕ → ℕ → Option (List Pixel)
  | 0, picked, _, _ => some (picked.map fun i => uniq.getD i pxZero)
  | k + 1, picked, t, fuel =>
    match drawLoop draws picked t fuel with
    | none => none
    | some (idx, t2) => initGo uniq draws k (picked ++ [idx]) t2 fuel

/-- Centroid initialization from the unique-color list: `clusterQuantity`
rounds of rejection sampling starting from an empty `picked` record. -/
def initCentroids (uniq : List Pixel) (k : ℕ) (draws : ℕ → ℕ) (fuel : ℕ) :
    Option (List Pixel) :=
  initGo uniq draws k [] 0 fuel

/-- A value carried in a worker response field: a string or a pixel buffer. -/
inductive JsValue where
  | str (s : String)
  | buf (b : List ℕ)
deriving DecidableEq

/-- The worker's `onmessage` reply, keyed by field name: on success it posts
`{status: "success", data: processedImageData}`, and when `clusterizeImage`
throws it posts `{status: "error", error: error.message}`. -/
def workerResponse : Except String (List ℕ) → List (String × JsValue)
  | Except.ok d => [(("status"), JsValue.str ("success")), (("data"), JsValue.buf d)]
  | Except.error e => [(("status"), JsValue.str ("error")), (("error"), JsValue.str e)]

/-! ### Shared indexing helpers -/

theorem getD_map_lt {α β : Type} (f : α → β) (l : List α) {i : ℕ}
    (h : i < l.length) (d : β) (d0 : α) :
    (l.map f).getD i d = f (l.getD i d0) := by
  rw [List.getD_eq_getElem _ _ (by simpa using h), List.getD_eq_getElem _ _ h,
    List.getElem_map]

theorem getD_range_lt {i n : ℕ} (h : i < n) (d : ℕ) :
    (List.range n).getD i d = i := by
  rw [List.getD_eq_getElem _ _ (by simpa using h), List.getElem_range]

theorem getD_zipWith_lt {α β γ : Type} (f : α → β → γ) (l1 : List α)
    (l2 : List β) {i : ℕ} (h1 : i < l1.length) (h2 : i < l2.length)
    (d : γ) (d1 : α) (d2 : β) :
    (List.zipWith f l1 l2).getD i d = f (l1.getD i d1) (l2.getD i d2) := by
  rw [List.getD_eq_getElem _ _ (by simp [List.length_zipWith]; omega),
    List.getD_eq_getElem _ _ h1, List.getD_eq_getElem _ _ h2,
    List.getElem_zipWith]

/-! ### C8 — the Deduplicator -/

theorem unique_go (l : List Pixel) :
    ∀ acc : List Pixel,
      l.foldl (fun acc p => if p ∈ acc then acc else acc ++ [p]) acc
        = acc ++ firstOccurrences (l.filter fun q => decide (q ∉ acc)) := by
  induction l with
  | nil => intro acc; simp [firstOccurrences]
  | cons p ps ih =>
    intro acc
    by_cases hp : p ∈ acc
    · simp only [List.foldl_cons, if_pos hp, ih acc, List.filter_cons]
      simp [hp]
    · simp only [List.foldl_cons, if_neg hp, ih (acc ++ [p]), List.filter_cons]
      rw [if_pos (by simp [hp])]
      simp only [firstOccurrences]
      have hfilter :
          ps.filter (fun q => decide (q ∉ acc ++ [p]))
            = (ps.filter fun q => decide (q ∉ acc)).filter fun q =>
                decide (q ≠ p) := by
        rw [List.filter_filter]
        apply List.filter_congr
        intro q _
        simp [List.mem_append, not_or, and_comm]
      rw [hfilter]
      simp

theorem mem_firstOccurrences (x : Pixel) (l : List Pixel) :
    x ∈ firstOccurrences l ↔ x ∈ l := by
  induction l using firstOccurrences.induct with
  | case1 => simp [firstOccurrences]
  | case2 p ps ih =>
    rw [firstOccurrences]
    simp only [List.mem_cons, ih, List.mem_filter]
    by_cases hx : x = p
    · simp [hx]
    · simp [hx]

theorem nodup_firstOccurrences (l : List Pixel) :
    (firstOccurrences l).Nodup := by
  induction l using firstOccurrences.induct with
  | case1 => simp [firstOccurrences]
  | case2 p ps ih =>
    rw [firstOccurrences]
    refine List.nodup_cons.2 ⟨?_, ih⟩
    intro hmem
    rcases (List.mem_filter.1 ((mem_firstOccurrences p _).1 hmem)) with ⟨-, hne⟩
    simp at hne

/-- C8: the Deduplicator returns exactly the distinct color samples of its
input — equality being channel-wise — in order of first occurrence, each
distinct value appearing exactly once. -/
theorem unique_first_occurrence_distinct (l : List Pixel) :
    unique l = firstOccurrences l ∧ (unique l).Nodup ∧
      ∀ x : Pixel, x ∈ unique l ↔ x ∈ l := by
  have h : unique l = firstOccurrences l := by
    have := unique_go l []
    simpa [unique] using this
  refine ⟨h, ?_, ?_⟩
  · rw [h]; exact nodup_firstOccurrences l
  · intro x; rw [h]; exact mem_firstOccurrences x l

/-! ### C1 — the assignment pass -/

theorem assignAux_some_spec (p : Pixel) (l : List Pixel) :
    ∀ (ci closest : ℕ) (m : ℚ),
      (assignAux p l ci closest (some m) = closest ∧
        ∀ t, t < l.length → m ≤ distSq p (l.getD t pxZero)) ∨
      (∃ t, t < l.length ∧ assignAux p l ci closest (some m) = ci + t ∧
        distSq p (l.getD t pxZero) < m ∧
        (∀ s, s < l.length →
          distSq p (l.getD t pxZero) ≤ distSq p (l.getD s pxZero)) ∧
        (∀ s, s < t →
          distSq p (l.getD t pxZero) < distSq p (l.getD s pxZero))) := by
  induction l with
  | nil =>
    intro ci closest m
    left
    exact ⟨rfl, fun t ht => absurd ht (by simp)⟩
  | cons c rest ih =>
    intro ci closest m
    by_cases hd : distSq p c < m
    · have hstep : assignAux p (c :: rest) ci closest (some m)
          = assignAux p rest (ci + 1) ci (some (distSq p c)) := by
        simp [assignAux, hd]
      rcases ih (ci + 1) ci (distSq p c) with ⟨heq, hall⟩ |
        ⟨t, ht, heq, hlt, hmin, hstrict⟩
      · right
        refine ⟨0, by simp, by rw [hstep, heq, Nat.add_zero], by simpa using hd,
          ?_, ?_⟩
        · intro s hs
          match s with
          | 0 => simp
          | s + 1 =>
            rw [List.getD_cons_zero, List.getD_cons_succ]
            exact hall s (by simpa using hs)
        · intro s hs; exact absurd hs (Nat.not_lt_zero s)
      · right
        refine ⟨t + 1, by simpa using ht, ?_, ?_, ?_, ?_⟩
        · rw [hstep, heq]; omega
        · rw [List.getD_cons_succ]
          exact lt_trans hlt hd
        · intro s hs
          match s with
          | 0 =>
            rw [List.getD_cons_succ, List.getD_cons_zero]
            exact le_of_lt hlt
          | s + 1 =>
            rw [List.getD_cons_succ, List.getD_cons_succ]
            exact hmin s (by simpa using hs)
        · intro s hs
          match s with
          | 0 =>
            rw [List.getD_cons_succ, List.getD_cons_zero]
            exact hlt
          | s + 1 =>
            rw [List.getD_cons_succ, List.getD_cons_succ]
            exact hstrict s (by omega)
    · have hstep : assignAux p (c :: rest) ci closest (some m)
          = assignAux p rest (ci + 1) closest (some m) := by
        simp [assignAux, hd]
      rcases ih (ci + 1) closest m with ⟨heq, hall⟩ |
        ⟨t, ht, heq, hlt, hmin, hstrict⟩
      · left
        refine ⟨by rw [hstep, heq], ?_⟩
        intro t ht
        match t with
        | 0 => rw [List.getD_cons_zero]; exact not_lt.1 hd
        | t + 1 =>
          rw [List.getD_cons_succ]
          exact hall t (by simpa using ht)
      · right
        refine ⟨t + 1, by simpa using ht, by rw [hstep, heq]; omega, ?_, ?_, ?_⟩
        · rw [List.getD_cons_succ]; exact hlt
        · intro s hs
          match s with
          | 0 =>
            rw [List.getD_cons_succ, List.getD_cons_zero]
            exact le_of_lt (lt_of_lt_of_le hlt (not_lt.1 hd))
          | s + 1 =>
            rw [List.getD_cons_succ, List.getD_cons_succ]
            exact hmin s (by simpa using hs)
        · intro s hs
          match s with
          | 0 =>
            rw [List.getD_cons_succ, List.getD_cons_zero]
            exact lt_of_lt_of_le hlt (not_lt.1 hd)
          | s + 1 =>
            rw [List.getD_cons_succ, List.getD_cons_succ]
            exact hstrict s (by omega)

/-- C1: in every iteration the assignment pass maps each sample to
`assignPixel`, and `assignPixel` returns the index of a centroid at minimum
squared Euclidean distance over all four channels; among tying centroids the
lowest index wins (every centroid scanned earlier is strictly farther). -/
theorem assignment_pass_argmin (pixels centroids : List Pixel) (p : Pixel)
    (hne : centroids ≠ []) :
    assignPixel centroids p < centroids.length ∧
    (∀ i, i < centroids.length →
      distSq p (centroids.getD (assignPixel centroids p) pxZero) ≤
        distSq p (centroids.getD i pxZero)) ∧
    (∀ i, i < assignPixel centroids p →
      distSq p (centroids.getD (assignPixel centroids p) pxZero) <
        distSq p (centroids.getD i pxZero)) ∧
    (kmeansStep pixels centroids).2 = pixels.map (assignPixel centroids) := by
  match centroids, hne with
  | c :: rest, _ =>
    have hstep : assignPixel (c :: rest) p
        = assignAux p rest 1 0 (some (distSq p c)) := by
      simp [assignPixel, assignAux]
    rcases assignAux_some_spec p rest 1 0 (distSq p c) with ⟨heq, hall⟩ |
      ⟨t, ht, heq, hlt, hmin, hstrict⟩
    · have hj : assignPixel (c :: rest) p = 0 := by rw [hstep, heq]
      refine ⟨by rw [hj]; simp, ?_, ?_, rfl⟩
      · intro i hi
        rw [hj]
        match i with
        | 0 => exact le_refl _
        | i + 1 =>
          rw [List.getD_cons_zero, List.getD_cons_succ]
          exact hall i (by simpa using hi)
      · intro i hi
        rw [hj] at hi
        exact absurd hi (Nat.not_lt_zero i)
    · have hj : assignPixel (c :: rest) p = t + 1 := by rw [hstep, heq]; omega
      refine ⟨by rw [hj]; simpa using ht, ?_, ?_, rfl⟩
      · intro i hi
        rw [hj, List.getD_cons_succ]
        match i with
        | 0 => exact le_of_lt hlt
        | i + 1 =>
          rw [List.getD_cons_succ]
          exact hmin i (by simpa using hi)
      · intro i hi
        rw [hj] at hi
        rw [hj, List.getD_cons_succ]
        match i with
        | 0 => exact hlt
        | i + 1 =>
          rw [List.getD_cons_succ]
          exact hstrict i (by omega)

/-- Closed instance of `assignment_pass_argmin` with two centroids and one
sample, discharging the nonemptiness hypothesis. -/
theorem assignment_pass_argmin_witness :
    assignPixel [(⟨0, 0, 0, 0⟩ : Pixel), ⟨3, 0, 0, 0⟩] ⟨2, 0, 0, 0⟩ <
      [(⟨0, 0, 0, 0⟩ : Pixel), ⟨3, 0, 0, 0⟩].length ∧
    (∀ i, i < [(⟨0, 0, 0, 0⟩ : Pixel), ⟨3, 0, 0, 0⟩].length →
      distSq ⟨2, 0, 0, 0⟩ ([(⟨0, 0, 0, 0⟩ : Pixel), ⟨3, 0, 0, 0⟩].getD
          (assignPixel [(⟨0, 0, 0, 0⟩ : Pixel), ⟨3, 0, 0, 0⟩] ⟨2, 0, 0, 0⟩)
          pxZero) ≤
        distSq ⟨2, 0, 0, 0⟩
          ([(⟨0, 0, 0, 0⟩ : Pixel), ⟨3, 0, 0, 0⟩].getD i pxZero)) ∧
    (∀ i, i < assignPixel [(⟨0, 0, 0, 0⟩ : Pixel), ⟨3, 0, 0, 0⟩] ⟨2, 0, 0, 0⟩ →
      distSq ⟨2, 0, 0, 0⟩ ([(⟨0, 0, 0, 0⟩ : Pixel), ⟨3, 0, 0, 0⟩].getD
          (assignPixel [(⟨0, 0, 0, 0⟩ : Pixel), ⟨3, 0, 0, 0⟩] ⟨2, 0, 0, 0⟩)
          pxZero) <
        distSq ⟨2, 0, 0, 0⟩
          ([(⟨0, 0, 0, 0⟩ : Pixel), ⟨3, 0, 0, 0⟩].getD i pxZero)) ∧
    (kmeansStep [(⟨1, 1, 1, 1⟩ : Pixel)]
        [(⟨0, 0, 0, 0⟩ : Pixel), ⟨3, 0, 0, 0⟩]).2 =
      [(⟨1, 1, 1, 1⟩ : Pixel)].map
        (assignPixel [(⟨0, 0, 0, 0⟩ : Pixel), ⟨3, 0, 0, 0⟩]) :=
  assignment_pass_argmin [⟨1, 1, 1, 1⟩] [⟨0, 0, 0, 0⟩, ⟨3, 0, 0, 0⟩]
    ⟨2, 0, 0, 0⟩ (by simp)

/-! ### Engine plumbing lemmas -/

theorem modifyAt_length (l : List CSum) (n : ℕ) (f : CSum → CSum) :
    (modifyAt l n f).length = l.length := by
  induction l generalizing n with
  | nil => simp [modifyAt]
  | cons s t ih =>
    cases n with
    | zero => simp [modifyAt]
    | succ n => simp [modifyAt, ih]

theorem modifyAt_getD_ne (l : List CSum) (n i : ℕ) (f : CSum → CSum)
    (d : CSum) (h : n ≠ i) :
    (modifyAt l n f).getD i d = l.getD i d := by
  induction l generalizing n i with
  | nil => simp [modifyAt]
  | cons s t ih =>
    cases n with
    | zero =>
      cases i with
      | zero => exact absurd rfl h
      | succ i => simp [modifyAt, List.getD_cons_succ]
    | succ n =>
      cases i with
      | zero => simp [modifyAt]
      | succ i =>
        simp only [modifyAt, List.getD_cons_succ]
        exact ih n i (by omega)

theorem buildSums_foldl_length (l : List (Pixel × ℕ)) :
    ∀ sums : List CSum,
      (l.foldl (fun sums pa => modifyAt sums pa.2
        (fun s => s.addPix pa.1.red pa.1.green pa.1.blue pa.1.alpha))
        sums).length = sums.length := by
  induction l with
  | nil => intro sums; rfl
  | cons pa l ih =>
    intro sums
    rw [List.foldl_cons, ih, modifyAt_length]

theorem buildSums_length (pixels : List Pixel) (assigns : List ℕ) (k : ℕ) :
    (buildSums pixels assigns k).length = k := by
  rw [buildSums, buildSums_foldl_length, emptySums, List.length_replicate]

theorem kmeansStep_fst_length (pixels cs : List Pixel) :
    (kmeansStep pixels cs).1.length = cs.length := by
  simp [kmeansStep, updateCentroids, List.length_zipWith, buildSums_length]

theorem distSq_nonneg (a b : Pixel) : 0 ≤ distSq a b := by
  unfold distSq
  positivity

/-- The pure-rational convergence test `distLt` agrees with the source's
`Math.sqrt (distSq a b) < tol`, read over the reals. -/
theorem distLt_iff_sqrt (a b : Pixel) (tol : ℚ) :
    distLt a b tol = true ↔
      Real.sqrt ((distSq a b : ℚ) : ℝ) < (tol : ℝ) := by
  rw [distLt, decide_eq_true_eq]
  constructor
  · rintro ⟨htol, hlt⟩
    have htolR : (0 : ℝ) < (tol : ℚ) := by exact_mod_cast htol
    rw [Real.sqrt_lt' htolR]
    have h2 : ((distSq a b : ℚ) : ℝ) < ((tol : ℚ) : ℝ) * ((tol : ℚ) : ℝ) := by
      exact_mod_cast hlt
    calc ((distSq a b : ℚ) : ℝ) < ((tol : ℚ) : ℝ) * ((tol : ℚ) : ℝ) := h2
      _ = ((tol : ℚ) : ℝ) ^ 2 := (sq ((tol : ℚ) : ℝ)).symm
  · intro h
    have htolR : (0 : ℝ) < (tol : ℚ) :=
      lt_of_le_of_lt (Real.sqrt_nonneg _) h
    have htol : (0 : ℚ) < tol := by exact_mod_cast htolR
    refine ⟨htol, ?_⟩
    rw [Real.sqrt_lt' htolR] at h
    have h2 : ((distSq a b : ℚ) : ℝ) < ((tol : ℚ) : ℝ) * ((tol : ℚ) : ℝ) := by
      calc ((distSq a b : ℚ) : ℝ) < ((tol : ℚ) : ℝ) ^ 2 := h
        _ = ((tol : ℚ) : ℝ) * ((tol : ℚ) : ℝ) := sq ((tol : ℚ) : ℝ)
    exact_mod_cast h2

theorem hasConverged_iff (tol : ℚ) :
    ∀ (newCs prevCs : List Pixel), newCs.length = prevCs.length →
      (hasConverged newCs prevCs tol = true ↔
        ∀ i, i < newCs.length →
          Real.sqrt ((distSq (newCs.getD i pxZero)
            (prevCs.getD i pxZero) : ℚ) : ℝ) < (tol : ℝ)) := by
  intro newCs
  induction newCs with
  | nil =>
    intro prevCs _
    simp [hasConverged]
  | cons a l1 ih =>
    intro prevCs hlen
    match prevCs, hlen with
    | b :: l2, hlen =>
      have hlen2 : l1.length = l2.length := by simpa using hlen
      rw [hasConverged, List.zip_cons_cons, List.all_cons, Bool.and_eq_true]
      constructor
      · rintro ⟨h0, hrest⟩
        intro i hi
        match i with
        | 0 =>
          simpa [List.getD_cons_zero] using (distLt_iff_sqrt a b tol).1 h0
        | i + 1 =>
          rw [List.getD_cons_succ, List.getD_cons_succ]
          exact ((ih l2 hlen2).1 hrest) i (by simpa using hi)
      · intro h
        refine ⟨(distLt_iff_sqrt a b tol).2 ?_, (ih l2 hlen2).2 ?_⟩
        · simpa [List.getD_cons_zero] using h 0 (by simp)
        · intro i hi
          have := h (i + 1) (by simpa using Nat.succ_lt_succ hi)
          simpa [List.getD_cons_succ] using this

theorem kmeansLoop_converged (pixels : List Pixel) (tol : ℚ) :
    ∀ (fuel : ℕ) (cs : List Pixel) (asg : List ℕ) (prev : List Pixel)
      (done : ℕ),
      (kmeansLoop pixels tol fuel cs asg prev done).converged = true →
      (kmeansLoop pixels tol fuel cs asg prev done).centroids
          = (kmeansStep pixels
              (kmeansLoop pixels tol fuel cs asg prev done).prev).1 ∧
        hasConverged (kmeansLoop pixels tol fuel cs asg prev done).centroids
          (kmeansLoop pixels tol fuel cs asg prev done).prev tol = true := by
  intro fuel
  induction fuel with
  | zero =>
    intro cs asg prev done h
    simp [kmeansLoop] at h
  | succ fuel ih =>
    intro cs asg prev done h
    by_cases hc : hasConverged (kmeansStep pixels cs).1 cs tol = true
    · simp only [kmeansLoop, hc, if_pos]
      exact ⟨trivial, trivial⟩
    · have hrw : kmeansLoop pixels tol (fuel + 1) cs asg prev done
          = kmeansLoop pixels tol fuel (kmeansStep pixels cs).1
              (kmeansStep pixels cs).2 cs (done + 1) := by
        simp only [kmeansLoop, hc, if_neg, Bool.false_eq_true,
          not_false_eq_true]
      rw [hrw] at h ⊢
      exact ih _ _ _ _ h

/-! ### C2 — the convergence check -/

/-- C2: at the end of an iteration the engine's convergence test succeeds if
and only if every centroid lies at Euclidean distance strictly below
`tolerance` from its snapshot (first conjunct), and whenever the engine
reports convergence, the final centroids are the update of the snapshot taken
at the start of that same iteration and every centroid moved strictly less
than `tolerance` in that final update (second conjunct). -/
theorem convergence_check_characterization (pixels cs0 : List Pixel)
    (tol : ℚ) (m : ℕ) (newCs prevCs : List Pixel)
    (hlen : newCs.length = prevCs.length) :
    (hasConverged newCs prevCs tol = true ↔
      ∀ i, i < newCs.length →
        Real.sqrt ((distSq (newCs.getD i pxZero)
          (prevCs.getD i pxZero) : ℚ) : ℝ) < (tol : ℝ)) ∧
    ((kmeans pixels cs0 tol m).converged = true →
      (kmeans pixels cs0 tol m).centroids
          = (kmeansStep pixels (kmeans pixels cs0 tol m).prev).1 ∧
        ∀ i, i < (kmeans pixels cs0 tol m).centroids.length →
          Real.sqrt ((distSq ((kmeans pixels cs0 tol m).centroids.getD i pxZero)
            ((kmeans pixels cs0 tol m).prev.getD i pxZero) : ℚ) : ℝ)
            < (tol : ℝ)) := by
  refine ⟨hasConverged_iff tol newCs prevCs hlen, ?_⟩
  have hk : kmeans pixels cs0 tol m = kmeansLoop pixels tol m cs0 [] [] 0 :=
    rfl
  rw [hk]
  intro h
  obtain ⟨hcent, hconv⟩ := kmeansLoop_converged pixels tol m cs0 [] [] 0 h
  refine ⟨hcent, ?_⟩
  have hlen2 : (kmeansLoop pixels tol m cs0 [] [] 0).centroids.length
      = (kmeansLoop pixels tol m cs0 [] [] 0).prev.length := by
    rw [hcent, kmeansStep_fst_length]
  exact (hasConverged_iff tol _ _ hlen2).1 hconv

/-- Closed instance of `convergence_check_characterization`, discharging the
equal-length hypothesis on a concrete one-centroid state. -/
theorem convergence_check_characterization_witness :
    (hasConverged [(⟨1, 1, 1, 1⟩ : Pixel)] [(⟨1, 1, 1, 1⟩ : Pixel)] 1 = true ↔
      ∀ i, i < [(⟨1, 1, 1, 1⟩ : Pixel)].length →
        Real.sqrt ((distSq ([(⟨1, 1, 1, 1⟩ : Pixel)].getD i pxZero)
          ([(⟨1, 1, 1, 1⟩ : Pixel)].getD i pxZero) : ℚ) : ℝ) < ((1 : ℚ) : ℝ)) ∧
    ((kmeans [(⟨1, 1, 1, 1⟩ : Pixel)] [(⟨1, 1, 1, 1⟩ : Pixel)] 1 3).converged
        = true →
      (kmeans [(⟨1, 1, 1, 1⟩ : Pixel)] [(⟨1, 1, 1, 1⟩ : Pixel)] 1 3).centroids
          = (kmeansStep [(⟨1, 1, 1, 1⟩ : Pixel)]
            (kmeans [(⟨1, 1, 1, 1⟩ : Pixel)] [(⟨1, 1, 1, 1⟩ : Pixel)]
              1 3).prev).1 ∧
        ∀ i, i < (kmeans [(⟨1, 1, 1, 1⟩ : Pixel)] [(⟨1, 1, 1, 1⟩ : Pixel)]
            1 3).centroids.length →
          Real.sqrt ((distSq
            ((kmeans [(⟨1, 1, 1, 1⟩ : Pixel)] [(⟨1, 1, 1, 1⟩ : Pixel)]
              1 3).centroids.getD i pxZero)
            ((kmeans [(⟨1, 1, 1, 1⟩ : Pixel)] [(⟨1, 1, 1, 1⟩ : Pixel)]
              1 3).prev.getD i pxZero) : ℚ) : ℝ) < ((1 : ℚ) : ℝ)) :=
  convergence_check_characterization [⟨1, 1, 1, 1⟩] [⟨1, 1, 1, 1⟩] 1 3
    [⟨1, 1, 1, 1⟩] [⟨1, 1, 1, 1⟩] rfl

/-! ### C3 — zero-cluster stability -/

theorem buildSums_foldl_getD_ne (ci : ℕ) (l : List (Pixel × ℕ)) :
    ∀ sums : List CSum, (∀ pa ∈ l, pa.2 ≠ ci) →
      (l.foldl (fun sums pa => modifyAt sums pa.2
        (fun s => s.addPix pa.1.red pa.1.green pa.1.blue pa.1.alpha))
        sums).getD ci CSum.zero = sums.getD ci CSum.zero := by
  induction l with
  | nil => intro sums _; rfl
  | cons pa l ih =>
    intro sums h
    rw [List.foldl_cons, ih _ (fun q hq => h q (List.mem_cons_of_mem pa hq)),
      modifyAt_getD_ne _ _ _ _ _ (h pa (List.mem_cons_self pa l))]

theorem getD_replicate_zero (n i : ℕ) :
    (List.replicate n CSum.zero).getD i CSum.zero = CSum.zero := by
  induction n generalizing i with
  | zero => simp
  | succ n ih =>
    cases i with
    | zero => simp [List.replicate_succ]
    | succ i => simp [List.replicate_succ, List.getD_cons_succ, ih]

/-- C3: if no sample is assigned to cluster `ci` by the assignment pass of an
iteration, the update pass leaves centroid `ci` exactly equal — channel for
channel — to its value before the update; nothing is reset and no error is
raised (the embedding is total). -/
theorem empty_cluster_centroid_unchanged (pixels cs : List Pixel) (ci : ℕ)
    (hci : ci < cs.length)
    (h : ∀ p ∈ pixels, assignPixel cs p ≠ ci) :
    (kmeansStep pixels cs).1.getD ci pxZero = cs.getD ci pxZero := by
  have hsums : (buildSums pixels (pixels.map (assignPixel cs))
      cs.length).getD ci CSum.zero = CSum.zero := by
    rw [buildSums]
    have hzip : ∀ l : List Pixel,
        l.zip (l.map (assignPixel cs))
          = l.map fun p => (p, assignPixel cs p) := by
      intro l
      induction l with
      | nil => rfl
      | cons a t ih => simp [ih]
    rw [hzip pixels, buildSums_foldl_getD_ne]
    · rw [emptySums, getD_replicate_zero]
    · intro pa hpa
      obtain ⟨p, hp, rfl⟩ := List.mem_map.1 hpa
      exact h p hp
  have hlen2 : ci < (buildSums pixels (pixels.map (assignPixel cs))
      cs.length).length := by
    rw [buildSums_length]; exact hci
  rw [kmeansStep, updateCentroids]
  rw [getD_zipWith_lt _ _ _ hci hlen2 pxZero pxZero CSum.zero, hsums]
  simp [CSum.zero]

/-- Closed instance of `empty_cluster_centroid_unchanged`: one sample, two
centroids, the far centroid receives no samples and is kept unchanged. -/
theorem empty_cluster_centroid_unchanged_witness :
    (kmeansStep [(⟨0, 0, 0, 0⟩ : Pixel)]
        [(⟨0, 0, 0, 0⟩ : Pixel), ⟨9, 9, 9, 9⟩]).1.getD 1 pxZero
      = [(⟨0, 0, 0, 0⟩ : Pixel), ⟨9, 9, 9, 9⟩].getD 1 pxZero :=
  empty_cluster_centroid_unchanged [⟨0, 0, 0, 0⟩] [⟨0, 0, 0, 0⟩, ⟨9, 9, 9, 9⟩]
    1 (by simp)
    (by
      intro p hp
      rw [List.mem_singleton] at hp
      subst hp
      norm_num [assignPixel, assignAux, distSq])

/-! ### C5 — the iteration bound -/

theorem kmeansLoop_iters_le (pixels : List Pixel) (tol : ℚ) :
    ∀ (fuel : ℕ) (cs : List Pixel) (asg : List ℕ) (prev : List Pixel)
      (done : ℕ),
      (kmeansLoop pixels tol fuel cs asg prev done).iters ≤ done + fuel := by
  intro fuel
  induction fuel with
  | zero => intro cs asg prev done; simp [kmeansLoop]
  | succ fuel ih =>
    intro cs asg prev done
    by_cases hc : hasConverged (kmeansStep pixels cs).1 cs tol = true
    · simp only [kmeansLoop, hc, if_pos]
      omega
    · have hrw : kmeansLoop pixels tol (fuel + 1) cs asg prev done
          = kmeansLoop pixels tol fuel (kmeansStep pixels cs).1
              (kmeansStep pixels cs).2 cs (done + 1) := by
        simp only [kmeansLoop, hc, if_neg, Bool.false_eq_true,
          not_false_eq_true]
      rw [hrw]
      have := ih (kmeansStep pixels cs).1 (kmeansStep pixels cs).2 cs (done + 1)
      omega

/-- C5: for every input and every `maxIterations = m`, the k-means loop
executes at most `m` full iterations, whether or not convergence is ever
reached. -/
theorem iteration_bound (pixels cs0 : List Pixel) (tol : ℚ) (m : ℕ) :
    (kmeans pixels cs0 tol m).iters ≤ m := by
  have := kmeansLoop_iters_le pixels tol m cs0 [] [] 0
  simpa [kmeans] using this

/-! ### C10 — zero tolerance never converges -/

theorem hasConverged_zero_tol (newCs prevCs : List Pixel)
    (hlen : newCs.length = prevCs.length) (hne : prevCs ≠ []) :
    hasConverged newCs prevCs 0 = false := by
  match prevCs, hne with
  | b :: l2, _ =>
    match newCs, hlen with
    | a :: l1, _ =>
      rw [hasConverged, List.zip_cons_cons, List.all_cons]
      have : distLt a b 0 = false := by simp [distLt]
      rw [this, Bool.false_and]

theorem kmeansLoop_zero_tol (pixels : List Pixel) :
    ∀ (fuel : ℕ) (cs : List Pixel) (asg : List ℕ) (prev : List Pixel)
      (done : ℕ), cs ≠ [] →
      (kmeansLoop pixels 0 fuel cs asg prev done).iters = done + fuel ∧
        (kmeansLoop pixels 0 fuel cs asg prev done).converged = false := by
  intro fuel
  induction fuel with
  | zero => intro cs asg prev done _; simp [kmeansLoop]
  | succ fuel ih =>
    intro cs asg prev done hne
    have hc : hasConverged (kmeansStep pixels cs).1 cs 0 = false :=
      hasConverged_zero_tol _ _ (kmeansStep_fst_length pixels cs) hne
    have hrw : kmeansLoop pixels 0 (fuel + 1) cs asg prev done
        = kmeansLoop pixels 0 fuel (kmeansStep pixels cs).1
            (kmeansStep pixels cs).2 cs (done + 1) := by
      simp only [kmeansLoop, hc, Bool.false_eq_true, not_false_eq_true,
        if_neg]
    rw [hrw]
    have hne2 : (kmeansStep pixels cs).1 ≠ [] := by
      intro hnil
      have := kmeansStep_fst_length pixels cs
      rw [hnil] at this
      exact hne (List.eq_nil_of_length_eq_zero this.symm)
    obtain ⟨h1, h2⟩ := ih (kmeansStep pixels cs).1 (kmeansStep pixels cs).2 cs
      (done + 1) hne2
    exact ⟨by omega, h2⟩

/-- C10: with `tolerance = 0` the convergence check compares a non-negative
displacement strictly against zero, so it can never succeed: the engine never
stops early and always executes exactly `maxIterations` iterations, even when
the centroids never move at all. -/
theorem zero_tolerance_never_converges (pixels cs0 : List Pixel) (m : ℕ)
    (hne : cs0 ≠ []) :
    (kmeans pixels cs0 0 m).iters = m ∧
      (kmeans pixels cs0 0 m).converged = false := by
  have := kmeansLoop_zero_tol pixels m cs0 [] [] 0 hne
  simpa [kmeans] using this

/-- Closed instance of `zero_tolerance_never_converges`: a one-pixel image
whose single centroid is exactly stationary still runs all three iterations. -/
theorem zero_tolerance_never_converges_witness :
    (kmeans [(⟨5, 5, 5, 5⟩ : Pixel)] [(⟨5, 5, 5, 5⟩ : Pixel)] 0 3).iters = 3 ∧
      (kmeans [(⟨5, 5, 5, 5⟩ : Pixel)] [(⟨5, 5, 5, 5⟩ : Pixel)] 0 3).converged
        = false :=
  zero_tolerance_never_converges [⟨5, 5, 5, 5⟩] [⟨5, 5, 5, 5⟩] 3 (by simp)

/-! ### C4 — initialization with too few unique colors -/

theorem drawLoop_some (draws : ℕ → ℕ) (picked : List ℕ) :
    ∀ (fuel t idx t2 : ℕ),
      drawLoop draws picked t fuel = some (idx, t2) →
      idx ∉ picked ∧ ∃ t3, idx = draws t3 := by
  intro fuel
  induction fuel with
  | zero => intro t idx t2 h; exact absurd h (by simp [drawLoop])
  | succ fuel ih =>
    intro t idx t2 h
    by_cases hmem : draws t ∈ picked
    · exact ih (t + 1) idx t2 (by simpa [drawLoop, hmem] using h)
    · have : (draws t, t + 1) = (idx, t2) := by
        simpa [drawLoop, hmem] using h
      obtain ⟨h1, -⟩ := Prod.mk.injEq _ _ _ _ ▸ this
      exact ⟨h1 ▸ hmem, t, h1.symm⟩

theorem nodup_bounded_length_le (l : List ℕ) (n : ℕ) (hnd : l.Nodup)
    (hb : ∀ x ∈ l, x < n) : l.length ≤ n := by
  have hsub : l.toFinset ⊆ Finset.range n := by
    intro x hx
    rw [Finset.mem_range]
    exact hb x (List.mem_toFinset.1 hx)
  have := Finset.card_le_card hsub
  rwa [List.toFinset_card_of_nodup hnd, Finset.card_range] at this

theorem initGo_none (uniq : List Pixel) (draws : ℕ → ℕ) (fuel : ℕ)
    (hdraws : ∀ t, draws t < uniq.length) :
    ∀ (k : ℕ) (picked : List ℕ) (t : ℕ), picked.Nodup →
      (∀ x ∈ picked, x < uniq.length) →
      uniq.length < picked.length + k →
      initGo uniq draws k picked t fuel = none := by
  intro k
  induction k with
  | zero =>
    intro picked t hnd hb hlt
    exact absurd (nodup_bounded_length_le picked _ hnd hb) (by omega)
  | succ k ih =>
    intro picked t hnd hb hlt
    cases hdl : drawLoop draws picked t fuel with
    | none => simp [initGo, hdl]
    | some r =>
      obtain ⟨idx, t2⟩ := r
      obtain ⟨hnotmem, t3, hidx⟩ := drawLoop_some draws picked fuel t idx t2 hdl
      have hrw : initGo uniq draws (k + 1) picked t fuel
          = initGo uniq draws k (picked ++ [idx]) t2 fuel := by
        simp [initGo, hdl]
      rw [hrw]
      apply ih
      · rw [List.nodup_append]
        refine ⟨hnd, List.nodup_singleton idx, ?_⟩
        intro a ha hmem
        rw [List.mem_singleton] at hmem
        exact hnotmem (hmem ▸ ha)
      · intro x hx
        rcases List.mem_append.1 hx with hx | hx
        · exact hb x hx
        · rw [List.mem_singleton] at hx
          exact hx ▸ hidx ▸ hdraws t3
      · simp only [List.length_append, List.length_singleton]
        omega

/-- C4 examined on the code: when `clusterQuantity` exceeds the number of
unique colors, the centroid-initialization rejection loop can never complete,
for any draw stream and any retry bound — no `InsufficientUniqueColors` error
exists in the source, the loop simply never terminates.  (`hdraws` records
that every draw `Math.floor(Math.random() * uniqueColors.length)` lies below
the unique-color count.) -/
theorem init_insufficient_colors_never_terminates (uniq : List Pixel)
    (k : ℕ) (draws : ℕ → ℕ) (fuel : ℕ) (hk : uniq.length < k)
    (hdraws : ∀ t, draws t < uniq.length) :
    initCentroids uniq k draws fuel = none := by
  rw [initCentroids]
  exact initGo_none uniq draws fuel hdraws k [] 0 List.nodup_nil
    (by simp) (by simpa using hk)

/-- Closed instance of `init_insufficient_colors_never_terminates`: a single
unique color with `clusterQuantity = 2` (the second rejection loop can never
find an unpicked index). -/
theorem init_insufficient_colors_never_terminates_witness :
    initCentroids [(⟨7, 7, 7, 7⟩ : Pixel)] 2 (fun _ => 0) 5 = none :=
  init_insufficient_colors_never_terminates [⟨7, 7, 7, 7⟩] 2 (fun _ => 0) 5
    (by norm_num) (fun t => by norm_num)

/-! ### C9 — the worker failure response -/

/-- C9 counterexample: the failure reply carries no field named `message`
(the message string is posted under the field named `error`), refuting the
claim that the `message` field holds the error description. -/
theorem worker_error_no_message_field :
    (workerResponse (Except.error ("Invalid image dimensions"))).lookup
      ("message") = none := by
  rfl

/-- C9 (amended): whenever the core computation fails, the worker posts an
object whose `status` field is the string `error` and whose `error` field —
not a `message` field — is the string describing the error. -/
theorem worker_error_response_fields (msg : String) :
    (workerResponse (Except.error msg)).lookup ("status")
        = some (JsValue.str ("error")) ∧
      (workerResponse (Except.error msg)).lookup ("error")
        = some (JsValue.str msg) := by
  constructor <;> rfl

/-! ### C7 — the Pixel Sampler -/

theorem foldl_addN_eq (l : List ℕ) (fr fg fb fa : ℕ → ℚ) (k : ℕ → ℕ) :
    ∀ acc : CSum,
      l.foldl (fun a i => a.addN (fr i) (fg i) (fb i) (fa i) (k i)) acc
        = ⟨acc.red + (l.map fr).sum, acc.green + (l.map fg).sum,
           acc.blue + (l.map fb).sum, acc.alpha + (l.map fa).sum,
           acc.count + (l.map k).sum⟩ := by
  induction l with
  | nil => intro acc; simp
  | cons i t ih =>
    intro acc
    rw [List.foldl_cons, ih]
    simp [CSum.addN, add_assoc]

theorem nested_foldl_addN (cols : List ℕ) (fr fg fb fa : ℕ → ℕ → ℚ) :
    ∀ (rows : List ℕ) (acc : CSum),
      rows.foldl (fun a yy => cols.foldl (fun a2 xx =>
        a2.addN (fr yy xx) (fg yy xx) (fb yy xx) (fa yy xx) 1) a) acc
        = ⟨acc.red + (rows.map fun yy => (cols.map (fr yy)).sum).sum,
           acc.green + (rows.map fun yy => (cols.map (fg yy)).sum).sum,
           acc.blue + (rows.map fun yy => (cols.map (fb yy)).sum).sum,
           acc.alpha + (rows.map fun yy => (cols.map (fa yy)).sum).sum,
           acc.count + rows.length * cols.length⟩ := by
  intro rows
  induction rows with
  | nil => intro acc; simp
  | cons yy rs ih =>
    intro acc
    rw [List.foldl_cons,
      foldl_addN_eq cols (fr yy) (fg yy) (fb yy) (fa yy) (fun _ => 1) acc, ih]
    have hone : ((cols.map fun _ => (1 : ℕ)).sum) = cols.length := by
      induction cols with
      | nil => rfl
      | cons c cs ihc => simp [ihc, Nat.add_comm]
    rw [hone]
    simp only [List.map_cons, List.sum_cons, List.length_cons, CSum.mk.injEq]
    refine ⟨by ring, by ring, by ring, by ring, by ring⟩

theorem sampleCell_eq (data : List ℕ) (width height x y xStep yStep : ℕ) :
    sampleCell data width height x y xStep yStep
      = cellMean data width height x y xStep yStep := by
  simp only [sampleCell, cellMean, CSum.addPix]
  have h := nested_foldl_addN (List.range (min xStep (width - x)))
    (fun yy xx => ((data.getD (((y + yy) * width + (x + xx)) * 4) 0 : ℕ) : ℚ))
    (fun yy xx => ((data.getD (((y + yy) * width + (x + xx)) * 4 + 1) 0 : ℕ) : ℚ))
    (fun yy xx => ((data.getD (((y + yy) * width + (x + xx)) * 4 + 2) 0 : ℕ) : ℚ))
    (fun yy xx => ((data.getD (((y + yy) * width + (x + xx)) * 4 + 3) 0 : ℕ) : ℚ))
    (List.range (min yStep (height - y))) CSum.zero
  rw [h]
  simp only [CSum.zero, List.length_range, zero_add, Nat.zero_add]
  rw [Pixel.mk.injEq]
  refine ⟨?_, ?_, ?_, ?_⟩ <;>
    (rw [mul_comm (min yStep (height - y)) (min xStep (width - x))];
      try norm_num)

theorem flatMap_range_map {α : Type} (f : ℕ → ℕ → α) :
    ∀ n m : ℕ, (List.range n).flatMap (fun i => (List.range m).map (f i))
      = (List.range (n * m)).map fun q => f (q / m) (q % m) := by
  intro n
  induction n with
  | zero => intro m; simp
  | succ n ih =>
    intro m
    have htail : ((List.range m).map fun x => n * m + x).map
          (fun q => f (q / m) (q % m)) = (List.range m).map (f n) := by
      rw [List.map_map]
      apply List.map_congr_left
      intro j hj
      rw [List.mem_range] at hj
      show f ((n * m + j) / m) ((n * m + j) % m) = f n j
      have h1 : (n * m + j) / m = n := by
        rw [mul_comm, Nat.mul_add_div (by omega), Nat.div_eq_of_lt hj,
          Nat.add_zero]
      have h2 : (n * m + j) % m = j := by
        rw [mul_comm, Nat.mul_add_mod, Nat.mod_eq_of_lt hj]
      rw [h1, h2]
    rw [List.range_succ, List.flatMap_append, ih m, Nat.succ_mul,
      List.range_add, List.map_append, htail]
    simp

theorem toPixelArray_grid (data : List ℕ) (height width xStep yStep : ℕ)
    (hlen : data.length = 4 * (height * width)) :
    toPixelArray data height width xStep yStep
      = some ((List.range (cellsOf height yStep * cellsOf width xStep)).map
          fun q => sampleCell data width height
            ((q % cellsOf width xStep) * xStep)
            ((q / cellsOf width xStep) * yStep) xStep yStep) := by
  rw [toPixelArray, if_neg (by omega)]
  exact congrArg some (flatMap_range_map
    (fun cy cx => sampleCell data width height (cx * xStep) (cy * yStep)
      xStep yStep)
    (cellsOf height yStep) (cellsOf width xStep))

theorem lt_cellsOf_iff {dim step : ℕ} (hs : 0 < step) (c : ℕ) :
    c < cellsOf dim step ↔ c * step < dim := by
  rw [cellsOf, Nat.lt_iff_add_one_le, Nat.le_div_iff_mul_le hs, add_mul,
    one_mul]
  omega

/-- C7: for a valid buffer and positive steps, `toPixelArray` returns a grid
of `ceil(width/xStep) * ceil(height/yStep)` samples in row-major cell order,
and the sample of each cell — including the partial cells at the right and
bottom edges — is, per channel, the sum over exactly the in-bounds pixels of
that cell divided by the actual number of contributing pixels
(`min xStep (width - x) * min yStep (height - y)`, which is positive), never
by the nominal cell area. -/
theorem pixel_sampler_cell_mean (data : List ℕ)
    (height width xStep yStep : ℕ) (hx : 0 < xStep) (hy : 0 < yStep)
    (hlen : data.length = 4 * (height * width)) :
    ∃ grid, toPixelArray data height width xStep yStep = some grid ∧
      grid.length = cellsOf width xStep * cellsOf height yStep ∧
      ∀ cy cx, cy < cellsOf height yStep → cx < cellsOf width xStep →
        0 < min xStep (width - cx * xStep) * min yStep (height - cy * yStep) ∧
        grid.getD (cy * cellsOf width xStep + cx) pxZero
          = cellMean data width height (cx * xStep) (cy * yStep)
              xStep yStep := by
  refine ⟨_, toPixelArray_grid data height width xStep yStep hlen, ?_, ?_⟩
  · rw [List.length_map, List.length_range, mul_comm]
  · intro cy cx hcy hcx
    have hxlt : cx * xStep < width := (lt_cellsOf_iff hx cx).1 hcx
    have hylt : cy * yStep < height := (lt_cellsOf_iff hy cy).1 hcy
    refine ⟨?_, ?_⟩
    · apply Nat.mul_pos
      · exact lt_min_iff.2 ⟨hx, Nat.sub_pos_of_lt hxlt⟩
      · exact lt_min_iff.2 ⟨hy, Nat.sub_pos_of_lt hylt⟩
    · have hq : cy * cellsOf width xStep + cx
          < cellsOf height yStep * cellsOf width xStep := by
        have h1 : cy * cellsOf width xStep + cx
            < (cy + 1) * cellsOf width xStep := by
          rw [add_mul, one_mul]
          omega
        have h2 : (cy + 1) * cellsOf width xStep
            ≤ cellsOf height yStep * cellsOf width xStep :=
          Nat.mul_le_mul_right _ (by omega)
        omega
      rw [getD_map_lt _ _ (by simpa using hq) pxZero 0, getD_range_lt hq 0]
      have hdiv : (cy * cellsOf width xStep + cx) / cellsOf width xStep
          = cy := by
        rw [mul_comm, Nat.mul_add_div (by omega), Nat.div_eq_of_lt hcx,
          Nat.add_zero]
      have hmod : (cy * cellsOf width xStep + cx) % cellsOf width xStep
          = cx := by
        rw [mul_comm, Nat.mul_add_mod, Nat.mod_eq_of_lt hcx]
      rw [hdiv, hmod, sampleCell_eq]

/-- Closed instance of `pixel_sampler_cell_mean`: a 3-wide, 2-tall buffer
sampled with `xStep = 2, yStep = 2`, so the right column cells are partial. -/
theorem pixel_sampler_cell_mean_witness :
    ∃ grid,
      toPixelArray
        [0, 0, 0, 0, 4, 4, 4, 4, 8, 8, 8, 8,
         2, 2, 2, 2, 6, 6, 6, 6, 10, 10, 10, 10] 2 3 2 2 = some grid ∧
      grid.length = cellsOf 3 2 * cellsOf 2 2 ∧
      ∀ cy cx, cy < cellsOf 2 2 → cx < cellsOf 3 2 →
        0 < min 2 (3 - cx * 2) * min 2 (2 - cy * 2) ∧
        grid.getD (cy * cellsOf 3 2 + cx) pxZero
          = cellMean
              [0, 0, 0, 0, 4, 4, 4, 4, 8, 8, 8, 8,
               2, 2, 2, 2, 6, 6, 6, 6, 10, 10, 10, 10] 3 2 (cx * 2) (cy * 2)
              2 2 :=
  pixel_sampler_cell_mean
    [0, 0, 0, 0, 4, 4, 4, 4, 8, 8, 8, 8,
     2, 2, 2, 2, 6, 6, 6, 6, 10, 10, 10, 10] 2 3 2 2
    (by norm_num) (by norm_num) (by norm_num)

/-! ### C6 — lossless round-trip at step 1 -/

theorem cellsOf_one (dim : ℕ) : cellsOf dim 1 = dim := by
  simp [cellsOf]

theorem foldl_range_collapse {β : Type} (g : β → ℕ → β) :
    ∀ (n m : ℕ) (b : β),
      (List.range n).foldl (fun b i =>
        (List.range m).foldl (fun b j => g b (i * m + j)) b) b
        = (List.range (n * m)).foldl g b := by
  intro n
  induction n with
  | zero => intro m b; simp
  | succ n ih =>
    intro m b
    rw [List.range_succ, List.foldl_append, ih, Nat.succ_mul, List.range_add,
      List.foldl_append, List.foldl_map]
    simp only [List.foldl_cons, List.foldl_nil]

theorem set4_cons (rest : List ℕ) (h : 4 ≤ rest.length) (v0 v1 v2 v3 : ℕ) :
    (((rest.set 0 v0).set 1 v1).set 2 v2).set 3 v3
      = v0 :: v1 :: v2 :: v3 :: rest.drop 4 := by
  match rest, h with
  | a :: b :: c :: d :: t, _ => rfl

theorem blocks_length (v0 v1 v2 v3 : ℕ → ℕ) (n : ℕ) :
    ((List.range n).flatMap fun q => [v0 q, v1 q, v2 q, v3 q]).length
      = 4 * n := by
  induction n with
  | zero => rfl
  | succ n ih =>
    rw [List.range_succ, List.flatMap_append, List.length_append, ih]
    simp [Nat.mul_succ]

theorem foldl_write_blocks (v0 v1 v2 v3 : ℕ → ℕ) :
    ∀ (n : ℕ) (l : List ℕ), 4 * n ≤ l.length →
      (List.range n).foldl (fun out q =>
        (((out.set (q * 4) (v0 q)).set (q * 4 + 1) (v1 q)).set
          (q * 4 + 2) (v2 q)).set (q * 4 + 3) (v3 q)) l
        = ((List.range n).flatMap fun q => [v0 q, v1 q, v2 q, v3 q])
            ++ l.drop (4 * n) := by
  intro n
  induction n with
  | zero => intro l _; simp
  | succ n ih =>
    intro l hl
    rw [List.range_succ, List.foldl_append, ih l (by omega)]
    simp only [List.foldl_cons, List.foldl_nil]
    set B := (List.range n).flatMap fun q => [v0 q, v1 q, v2 q, v3 q]
      with hB
    have hBlen : B.length = 4 * n := blocks_length v0 v1 v2 v3 n
    have hdlen : 4 ≤ (l.drop (4 * n)).length := by
      rw [List.length_drop]
      omega
    have hskip : ∀ (k : ℕ) (a : ℕ) (rest : List ℕ),
        (B ++ rest).set (B.length + k) a = B ++ rest.set k a := by
      intro k a rest
      rw [List.set_append, if_neg (by omega)]
      have h : B.length + k - B.length = k := by omega
      rw [h]
    have e0 : n * 4 = B.length + 0 := by omega
    have e1 : n * 4 + 1 = B.length + 1 := by omega
    have e2 : n * 4 + 2 = B.length + 2 := by omega
    have e3 : n * 4 + 3 = B.length + 3 := by omega
    rw [e3, e2, e1, e0]
    rw [hskip, hskip, hskip, hskip]
    rw [set4_cons _ hdlen, List.drop_drop, List.flatMap_append]
    simp only [List.flatMap_cons, List.flatMap_nil, List.append_nil,
      List.append_assoc, List.cons_append, List.nil_append]
    rw [← hB, show 4 * n + 4 = 4 * (n + 1) from by omega]

theorem map_getD_range (l : List ℕ) :
    (List.range l.length).map (fun i => l.getD i 0) = l := by
  induction l with
  | nil => rfl
  | cons a t ih =>
    rw [List.length_cons, List.range_succ_eq_map, List.map_cons, List.map_map]
    have htail : List.map ((fun i => (a :: t).getD i 0) ∘ Nat.succ)
        (List.range t.length) = t := by
      have hcongr : ∀ i ∈ List.range t.length,
          ((fun i => (a :: t).getD i 0) ∘ Nat.succ) i = t.getD i 0 := by
        intro i _
        simp [Function.comp, List.getD_cons_succ]
      rw [List.map_congr_left hcongr, ih]
    rw [htail, List.getD_cons_zero]

theorem clamp8_natCast (n : ℕ) (h : n ≤ 255) : clamp8 ((n : ℕ) : ℚ) = n := by
  rw [clamp8]
  by_cases h0 : ((n : ℕ) : ℚ) ≤ 0
  · have hn0 : ((n : ℕ) : ℚ) = 0 := le_antisymm h0 (Nat.cast_nonneg n)
    have : n = 0 := by exact_mod_cast hn0
    rw [if_pos h0, this]
  · rw [if_neg h0]
    by_cases h255 : (255 : ℚ) ≤ ((n : ℕ) : ℚ)
    · have h255n : (255 : ℕ) ≤ n := by exact_mod_cast h255
      have hn : n = 255 := le_antisymm h h255n
      rw [if_pos h255, hn]
    · rw [if_neg h255]
      simp only [roundHalfEven, Int.floor_natCast]
      have hfrac : ((n : ℕ) : ℚ) - ((n : ℤ) : ℚ) = 0 := by
        push_cast
        ring
      rw [hfrac, if_pos (by norm_num)]
      exact Int.toNat_natCast n

theorem sampleCell_step_one (data : List ℕ) (w h x y : ℕ)
    (hx : x < w) (hy : y < h) :
    sampleCell data w h x y 1 1
      = ⟨((data.getD ((y * w + x) * 4) 0 : ℕ) : ℚ),
         ((data.getD ((y * w + x) * 4 + 1) 0 : ℕ) : ℚ),
         ((data.getD ((y * w + x) * 4 + 2) 0 : ℕ) : ℚ),
         ((data.getD ((y * w + x) * 4 + 3) 0 : ℕ) : ℚ)⟩ := by
  rw [sampleCell_eq, cellMean]
  have hnx : min 1 (w - x) = 1 := by omega
  have hny : min 1 (h - y) = 1 := by omega
  have hr1 : List.range 1 = [0] := rfl
  simp only [hnx, hny, hr1, List.map_cons, List.map_nil,
    List.sum_cons, List.sum_nil, Nat.mul_one, Nat.cast_one, Nat.add_zero,
    Pixel.mk.injEq]
  norm_num

theorem toPixelArray_step_one (data : List ℕ) (width height : ℕ)
    (hlen : data.length = 4 * (height * width)) :
    toPixelArray data height width 1 1
      = some ((List.range (height * width)).map fun q =>
          (⟨((data.getD (q * 4) 0 : ℕ) : ℚ), ((data.getD (q * 4 + 1) 0 : ℕ) : ℚ),
            ((data.getD (q * 4 + 2) 0 : ℕ) : ℚ),
            ((data.getD (q * 4 + 3) 0 : ℕ) : ℚ)⟩ : Pixel)) := by
  rw [toPixelArray_grid data height width 1 1 hlen, cellsOf_one, cellsOf_one]
  congr 1
  apply List.map_congr_left
  intro q hq
  rw [List.mem_range] at hq
  have hw : 0 < width := by
    rcases Nat.eq_zero_or_pos width with h0 | h0
    · subst h0
      simp at hq
    · exact h0
  rw [mul_one, mul_one,
    sampleCell_step_one data width height (q % width) (q / width)
      (Nat.mod_lt q hw) ((Nat.div_lt_iff_lt_mul hw).2 hq)]
  have hq4 : q / width * width + q % width = q := by
    rw [mul_comm]
    exact Nat.div_add_mod q width
  rw [hq4]

theorem fromPixelArray_step_one (pixels : List Pixel) (width height : ℕ)
    (hplen : pixels.length = height * width) :
    fromPixelArray pixels height width 1 1
      = some ((List.range (height * width)).flatMap fun q =>
          [clamp8 (pixels.getD q pxZero).red,
           clamp8 (pixels.getD q pxZero).green,
           clamp8 (pixels.getD q pxZero).blue,
           clamp8 (pixels.getD q pxZero).alpha]) := by
  simp only [fromPixelArray, cellsOf_one]
  rw [if_neg (by simp [hplen, Nat.mul_comm])]
  congr 1
  have hr1 : List.range 1 = [0] := rfl
  have hM1 : List.foldl
      (fun out cy =>
        List.foldl
          (fun out cx =>
            List.foldl
              (fun out yy =>
                List.foldl
                  (fun out xx =>
                    (((out.set (((cy * 1 + yy) * width + (cx * 1 + xx)) * 4)
                        (clamp8 (pixels.getD (cy * width + cx) pxZero).red)).set
                        (((cy * 1 + yy) * width + (cx * 1 + xx)) * 4 + 1)
                        (clamp8 (pixels.getD (cy * width + cx) pxZero).green)).set
                        (((cy * 1 + yy) * width + (cx * 1 + xx)) * 4 + 2)
                        (clamp8 (pixels.getD (cy * width + cx) pxZero).blue)).set
                        (((cy * 1 + yy) * width + (cx * 1 + xx)) * 4 + 3)
                        (clamp8 (pixels.getD (cy * width + cx) pxZero).alpha))
                  out (List.range (min 1 (width - cx * 1))))
              out (List.range (min 1 (height - cy * 1))))
          out (List.range width))
      (List.replicate (width * height * 4) 0) (List.range height)
      = List.foldl
          (fun out cy =>
            List.foldl
              (fun out cx =>
                (((out.set ((cy * width + cx) * 4)
                    (clamp8 (pixels.getD (cy * width + cx) pxZero).red)).set
                    ((cy * width + cx) * 4 + 1)
                    (clamp8 (pixels.getD (cy * width + cx) pxZero).green)).set
                    ((cy * width + cx) * 4 + 2)
                    (clamp8 (pixels.getD (cy * width + cx) pxZero).blue)).set
                    ((cy * width + cx) * 4 + 3)
                    (clamp8 (pixels.getD (cy * width + cx) pxZero).alpha))
              out (List.range width))
          (List.replicate (width * height * 4) 0) (List.range height) := by
    apply List.foldl_ext
    intro out cy hcy
    rw [List.mem_range] at hcy
    apply List.foldl_ext
    intro out2 cx hcx
    rw [List.mem_range] at hcx
    have h1 : min 1 (height - cy * 1) = 1 := by omega
    have h2 : min 1 (width - cx * 1) = 1 := by omega
    rw [h1, h2, hr1]
    simp only [List.foldl_cons, List.foldl_nil, mul_one, Nat.add_zero]
  refine hM1.trans ?_
  refine Eq.trans (foldl_range_collapse
    (fun out q =>
      (((out.set (q * 4) (clamp8 (pixels.getD q pxZero).red)).set
        (q * 4 + 1) (clamp8 (pixels.getD q pxZero).green)).set
        (q * 4 + 2) (clamp8 (pixels.getD q pxZero).blue)).set
        (q * 4 + 3) (clamp8 (pixels.getD q pxZero).alpha))
    height width (List.replicate (width * height * 4) 0)) ?_
  refine Eq.trans (foldl_write_blocks
    (fun q => clamp8 (pixels.getD q pxZero).red)
    (fun q => clamp8 (pixels.getD q pxZero).green)
    (fun q => clamp8 (pixels.getD q pxZero).blue)
    (fun q => clamp8 (pixels.getD q pxZero).alpha)
    (height * width) (List.replicate (width * height * 4) 0)
    (by rw [List.length_replicate, show width * height * 4
      = 4 * (height * width) from by ring])) ?_
  rw [List.drop_eq_nil_of_le
    (by rw [List.length_replicate, show width * height * 4
      = 4 * (height * width) from by ring]),
    List.append_nil]

theorem flatMap_congr_left {α β : Type} (l : List α) (f g : α → List β)
    (h : ∀ a ∈ l, f a = g a) : l.flatMap f = l.flatMap g := by
  induction l with
  | nil => rfl
  | cons a t ih =>
    rw [List.flatMap_cons, List.flatMap_cons, h a (List.mem_cons_self a t),
      ih fun b hb => h b (List.mem_cons_of_mem a hb)]

/-- C6: for a valid 4-channel buffer (length `4 * width * height`, every
channel value an integer in [0, 255]) sampled with `xStep = yStep = 1`,
recomposing the sample grid reproduces the original buffer exactly. -/
theorem sampler_recomposer_roundtrip (data : List ℕ) (width height : ℕ)
    (hlen : data.length = 4 * (height * width))
    (hval : ∀ v ∈ data, v ≤ 255) :
    ∃ grid, toPixelArray data height width 1 1 = some grid ∧
      fromPixelArray grid height width 1 1 = some data := by
  refine ⟨_, toPixelArray_step_one data width height hlen, ?_⟩
  rw [fromPixelArray_step_one _ width height
    (by rw [List.length_map, List.length_range])]
  congr 1
  have hb : ∀ i : ℕ, data.getD i 0 ≤ 255 := by
    intro i
    by_cases hi : i < data.length
    · rw [List.getD_eq_getElem data 0 hi]
      exact hval _ (List.getElem_mem hi)
    · rw [List.getD_eq_default data 0 (by omega)]
      exact Nat.zero_le 255
  have hblocks : ∀ q ∈ List.range (height * width),
      [clamp8 (((List.range (height * width)).map fun q =>
          (⟨((data.getD (q * 4) 0 : ℕ) : ℚ), ((data.getD (q * 4 + 1) 0 : ℕ) : ℚ),
            ((data.getD (q * 4 + 2) 0 : ℕ) : ℚ),
            ((data.getD (q * 4 + 3) 0 : ℕ) : ℚ)⟩ : Pixel)).getD q pxZero).red,
       clamp8 (((List.range (height * width)).map fun q =>
          (⟨((data.getD (q * 4) 0 : ℕ) : ℚ), ((data.getD (q * 4 + 1) 0 : ℕ) : ℚ),
            ((data.getD (q * 4 + 2) 0 : ℕ) : ℚ),
            ((data.getD (q * 4 + 3) 0 : ℕ) : ℚ)⟩ : Pixel)).getD q pxZero).green,
       clamp8 (((List.range (height * width)).map fun q =>
          (⟨((data.getD (q * 4) 0 : ℕ) : ℚ), ((data.getD (q * 4 + 1) 0 : ℕ) : ℚ),
            ((data.getD (q * 4 + 2) 0 : ℕ) : ℚ),
            ((data.getD (q * 4 + 3) 0 : ℕ) : ℚ)⟩ : Pixel)).getD q pxZero).blue,
       clamp8 (((List.range (height * width)).map fun q =>
          (⟨((data.getD (q * 4) 0 : ℕ) : ℚ), ((data.getD (q * 4 + 1) 0 : ℕ) : ℚ),
            ((data.getD (q * 4 + 2) 0 : ℕ) : ℚ),
            ((data.getD (q * 4 + 3) 0 : ℕ) : ℚ)⟩ : Pixel)).getD q pxZero).alpha]
      = [data.getD (q * 4) 0, data.getD (q * 4 + 1) 0,
         data.getD (q * 4 + 2) 0, data.getD (q * 4 + 3) 0] := by
    intro q hq
    rw [List.mem_range] at hq
    rw [getD_map_lt _ _ (by simpa using hq) pxZero 0, getD_range_lt hq 0]
    dsimp only
    rw [clamp8_natCast _ (hb _), clamp8_natCast _ (hb _),
      clamp8_natCast _ (hb _), clamp8_natCast _ (hb _)]
  rw [flatMap_congr_left _ _ _ hblocks]
  have hexp : ∀ q ∈ List.range (height * width),
      [data.getD (q * 4) 0, data.getD (q * 4 + 1) 0,
       data.getD (q * 4 + 2) 0, data.getD (q * 4 + 3) 0]
        = (List.range 4).map fun c => data.getD (q * 4 + c) 0 := by
    intro q _
    have hr4 : List.range 4 = [0, 1, 2, 3] := rfl
    rw [hr4]
    simp
  rw [flatMap_congr_left _ _ _ hexp,
    flatMap_range_map (fun q c => data.getD (q * 4 + c) 0) (height * width) 4]
  have hpt : ∀ i ∈ List.range (height * width * 4),
      data.getD (i / 4 * 4 + i % 4) 0 = data.getD i 0 := by
    intro i _
    congr 1
    rw [mul_comm]
    exact Nat.div_add_mod i 4
  rw [List.map_congr_left hpt]
  have hlen2 : height * width * 4 = data.length := by
    rw [hlen]
    exact Nat.mul_comm _ 4
  rw [hlen2, map_getD_range]

/-- Closed instance of `sampler_recomposer_roundtrip` on a concrete 1×2
buffer, discharging the length and channel-range hypotheses. -/
theorem sampler_recomposer_roundtrip_witness :
    ∃ grid, toPixelArray [1, 2, 3, 4, 250, 251, 252, 255] 1 2 1 1 = some grid ∧
      fromPixelArray grid 1 2 1 1 = some [1, 2, 3, 4, 250, 251, 252, 255] :=
  sampler_recomposer_roundtrip [1, 2, 3, 4, 250, 251, 252, 255] 2 1
    (by norm_num) (by
      intro v hv
      simp only [List.mem_cons, List.not_mem_nil, or_false] at hv
      rcases hv with rfl | rfl | rfl | rfl | rfl | rfl | rfl | rfl <;> norm_num)
